import Mathlib

/-!
# Verification of the adaptive size-targeting transcode controller

Shallow embedding of the algorithmic core of `screenshots.py`: the
`next_guess` parameter-update step, the regime switch of `create_gif`,
the clip-window planning of `prepare_clips`, the batched dispatch of
`ffmpeg_mimo`, the dither-variant selection scan of `choose_dither_algo`,
and the per-input error-propagation policy of `main`.

Python floats are modelled as real numbers (for the `log`-based frame-rate
update) or as rationals (for the purely field-arithmetic clip planning);
Python exceptions and non-termination are modelled by `Option`/`Except`
with explicit fuel where the source contains an unbounded `while` loop.
-/

namespace Screenshots

/-! ## `next_guess` (screenshots.py, lines 292-303)

```python
def next_guess(depth, frame_rate, multi_palette, r):
    if multi_palette:
        new_depth = depth // 2
        new_frame_rate = log(depth, 2) * frame_rate * r / log(new_depth, 2)
        while new_frame_rate > frame_rate:
            new_depth = (new_depth + depth) // 2
            new_frame_rate = log(depth, 2) * frame_rate * r / log(new_depth, 2)
        return (new_depth, new_frame_rate)
    else:
        return (depth, frame_rate * r)
```
-/
/-- The candidate frame rate `log(depth, 2) * frame_rate * r / log(new_depth, 2)`
computed inside `next_guess`. -/
noncomputable def nextGuessRate (depth newDepth : ℕ) (frameRate r : ℝ) : ℝ :=
  Real.logb 2 (depth : ℝ) * frameRate * r / Real.logb 2 (newDepth : ℝ)

/-- The `while new_frame_rate > frame_rate` loop of `next_guess` in
multi-palette mode, with explicit fuel.  `none` models either fuel
exhaustion (the Python loop has not yet exited) or the Python error raised
when `new_depth ≤ 1` (`log(0, 2)` is a domain error and `log(1, 2) = 0`
makes the division raise `ZeroDivisionError`). -/
noncomputable def nextGuessLoop (depth : ℕ) (frameRate r : ℝ) :
    ℕ → ℕ → Option (ℕ × ℝ)
  | 0, _ => none
  | fuel + 1, newDepth =>
    if newDepth ≤ 1 then none
    else if frameRate < nextGuessRate depth newDepth frameRate r then
      nextGuessLoop depth frameRate r fuel ((newDepth + depth) / 2)
    else some (newDepth, nextGuessRate depth newDepth frameRate r)

/-- The function `next_guess` itself.  In multi-palette mode the loop starts from
`new_depth = depth // 2`; in single-palette mode the result is
`(depth, frame_rate * r)` directly. -/
noncomputable def next_guess (depth : ℕ) (frameRate : ℝ) (multiPalette : Bool)
    (r : ℝ) (fuel : ℕ) : Option (ℕ × ℝ) :=
  if multiPalette then nextGuessLoop depth frameRate r fuel (depth / 2)
  else some (depth, frameRate * r)

/-! ## `create_gif` search state and regime switch (screenshots.py, lines 244-256)

```python
def create_gif(video, args):
    depth = args.gif_color_depth_max
    frame_rate = min(video.frame_rate_num / video.frame_rate_den, args.gif_frame_rate_max)
    multi_palette = True
    s = choose_dither_algo(depth, frame_rate, multi_palette, args.prefix)
    while s > args.file_size_max:
        r = args.file_size_max / s
        depth, frame_rate = next_guess(depth, frame_rate, multi_palette, r)
        if multi_palette and (depth < args.gif_color_depth_min or frame_rate < args.gif_frame_rate_min):
            depth = args.gif_color_depth_max
            frame_rate = min(video.frame_rate_num / video.frame_rate_den, args.gif_frame_rate_max)
            multi_palette = False
        s = choose_dither_algo(depth, frame_rate, multi_palette, args.prefix)
```
-/
/-- The GIF-related configuration values read by `create_gif`. -/
structure GifArgs where
  colorDepthMin : ℕ
  colorDepthMax : ℕ
  frameRateMin : ℝ
  frameRateMax : ℝ

/-- The search state `(colorDepth, frameRate, paletteMode)` mutated by the
`create_gif` loop. -/
structure GifState where
  depth : ℕ
  frameRate : ℝ
  multiPalette : Bool

/-- The initial state of `create_gif`:
`(maxDepth, min(sourceFrameRate, maxFrameRate), Multi)`. -/
noncomputable def createGifInit (args : GifArgs) (srcRate : ℝ) : GifState :=
  ⟨args.colorDepthMax, min srcRate args.frameRateMax, true⟩

/-- One parameter-update iteration of the `create_gif` loop: call
`next_guess`, then apply the regime-switch test.  `none` models a Python
error inside `next_guess` (or its loop not having exited). -/
noncomputable def createGifStep (args : GifArgs) (srcRate : ℝ) (st : GifState)
    (r : ℝ) (fuel : ℕ) : Option GifState :=
  match next_guess st.depth st.frameRate st.multiPalette r fuel with
  | none => none
  | some (d, f) =>
    if st.multiPalette = true ∧ (d < args.colorDepthMin ∨ f < args.frameRateMin) then
      some ⟨args.colorDepthMax, min srcRate args.frameRateMax, false⟩
    else some ⟨d, f, st.multiPalette⟩

/-! ## Clip window planning in `prepare_clips` (screenshots.py, lines 217-242)

```python
length_with_cuts = video.length - args.cut_start - args.cut_end
for i in range(clips):
    ss = args.cut_start + length_with_cuts * (i + 1) / (clips + 1) - length / 2
```

Each window starts at `ss` and spans `length` seconds (the source converts
this to an exact frame count; the window extent in seconds is `length`).
-/
/-- The start offset of window `i` (0-based) computed by `prepare_clips`. -/
def clipStart (videoLength cutStart cutEnd clipLength : ℚ) (clips i : ℕ) : ℚ :=
  cutStart + (videoLength - cutStart - cutEnd) * (i + 1) / (clips + 1) - clipLength / 2

/-- The ordered list of window start offsets computed by `prepare_clips`. -/
def clipStarts (videoLength cutStart cutEnd clipLength : ℚ) (clips : ℕ) : List ℚ :=
  (List.range clips).map (clipStart videoLength cutStart cutEnd clipLength clips)

/-! ## `ffmpeg_mimo` batched dispatch (screenshots.py, lines 398-418)

```python
def ffmpeg_mimo(inputs, outputs, limit=10):
    assert len(inputs) == len(outputs)
    N = len(inputs) // limit
    M = len(inputs) % limit
    for i in range(N):
        a = i * limit
        b = a + limit
        ffmpeg("-vsync", "passthrough", *flatten(inputs[a:b]),
               *flatten([["-map", f"{j}:v"] + out for j, out in zip(range(limit), outputs[a:b])]))
    if M != 0:
        a = N * limit
        b = a + M
        ffmpeg("-vsync", "passthrough", *flatten(inputs[a:b]),
               *flatten([["-map", f"{j}:v"] + out for j, out in zip(range(M), outputs[a:b])]))
```
-/
/-- The `(offset, size)` slices of the batches issued by `ffmpeg_mimo` for
`n` jobs: `n / limit` full batches of size `limit`, then one batch of size
`n % limit` when the remainder is nonzero. -/
def mimoSlices (n limit : ℕ) : List (ℕ × ℕ) :=
  (List.range (n / limit)).map (fun i => (i * limit, limit)) ++
    (if n % limit ≠ 0 then [(n / limit * limit, n % limit)] else [])

/-- The external invocations issued by `ffmpeg_mimo`: each invocation is
the batch's input list together with its `-map j:v` output list, pairing
stream index `j` (from `zip(range(k), outputs[a:b])`) with the `j`-th
output of the batch. -/
def ffmpeg_mimo {I O : Type*} (inputs : List I) (outputs : List O)
    (limit : ℕ) : List (List I × List (ℕ × O)) :=
  (mimoSlices inputs.length limit).map
    (fun s => ((inputs.drop s.1).take s.2,
      (List.range s.2).zip ((outputs.drop s.1).take s.2)))

/-! ## Variant selection in `choose_dither_algo` (screenshots.py, lines 272-283)

```python
best = None
for name, algo in dither_algos.items():
    current = (name, algo, os.stat(name).st_size)
    if not best:
        best = current
    elif current[2] <= best[2]:
        os.unlink(best[0])
        best = current
    else:
        os.unlink(current[0])
os.rename(best[0], prefix + CLIPS_FILE)
return best[2]
```

Variants are modelled as `(name, sizeBytes)` pairs in enumeration order;
the scan state is the running best plus the list of files deleted so far
(in deletion order).
-/
/-- One step of the selection scan: adopt the first variant, then replace
the running best whenever the current size is `≤` the best size (deleting
the superseded best), otherwise delete the current variant. -/
def ditherStep {ν : Type*} (acc : Option (ν × ℕ) × List ν) (cur : ν × ℕ) :
    Option (ν × ℕ) × List ν :=
  match acc.1 with
  | none => (some cur, acc.2)
  | some best =>
    if cur.2 ≤ best.2 then (some cur, acc.2 ++ [best.1])
    else (some best, acc.2 ++ [cur.1])

/-- The full scan of `choose_dither_algo`: returns the kept variant (which
the source renames to the canonical output path and whose size it returns)
and the deleted file names. -/
def choose_dither_algo {ν : Type*} (variants : List (ν × ℕ)) :
    Option (ν × ℕ) × List ν :=
  variants.foldl ditherStep (none, [])

/-! ## `main` error propagation (screenshots.py, lines 183-198 and 19-23)

```python
def main(args):
    returncode = 0
    ...
    for filename in args.files:
        try:
            ...
            process_video(VideoMetadata(filename), args)
        except CalledProcessError as ex:
            returncode += 1
            ...
    return returncode
```

`VideoMetadata.__init__` raises a *plain* `Exception` (not a
`CalledProcessError`) when the source has no video stream:

```python
if not video_streams:
    raise Exception("No video stream found in " + filename)
```

Per-input processing is abstracted by its outcome: success, an encode
failure (some external invocation exited non-zero, surfacing as
`CalledProcessError`), or a probe failure because the source has no usable
video stream (the plain `Exception` above).
-/
/-- Outcome of processing one input file. -/
inductive InputOutcome where
  | ok
  | encodeError
  | probeNoVideo
deriving DecidableEq

/-- The `for filename in args.files` loop of `main` with its
`except CalledProcessError` handler: an encode failure increments the
return code and processing continues; the plain no-video-stream
`Exception` is not matched by the handler and propagates
(`Except.error ()`), aborting the run. -/
def mainLoop : List InputOutcome → ℕ → Except Unit ℕ
  | [], returncode => Except.ok returncode
  | o :: rest, returncode =>
    match o with
    | InputOutcome.ok => mainLoop rest returncode
    | InputOutcome.encodeError => mainLoop rest (returncode + 1)
    | InputOutcome.probeNoVideo => Except.error ()

/-! ## Playlist and job selection in `prepare_clips` (screenshots.py, lines 217-242)

```python
with open(args.prefix + PLAYLIST_FILE, "w") as playlist:
    for i in range(clips):
        clip_file = f"{args.prefix}clip{i + 1:0{digits(clips)}d}.mkv"
        clip_files.append(clip_file)
        if not (args.keep and os.path.exists(clip_file)):
            ffinputs.append(...); ffoutputs.append(...)
        playlist.write("file '{}'\n".format(clip_file))
ffmpeg_mimo(ffinputs, ffoutputs)
```

Clip files are identified by their window index `i`; `preexists i` models
`os.path.exists(clip_file)` for window `i`, `keep` models `args.keep`.
The first component is the playlist (concatenation manifest) in write
order, the second the job list handed to `ffmpeg_mimo`.
-/
/-- The playlist and dispatch-job lists built by the `prepare_clips` loop. -/
def prepare_clips (keep : Bool) (preexists : ℕ → Bool) (clips : ℕ) :
    List ℕ × List ℕ :=
  (List.range clips).foldl
    (fun acc i =>
      (acc.1 ++ [i], if keep && preexists i then acc.2 else acc.2 ++ [i]))
    ([], [])

/-! ## Lemmas and theorems -/

/-- Evaluation rule `logb 2 (2 ^ n) = n`. -/
lemma logb_two_pow (n : ℕ) : Real.logb 2 ((2 : ℝ) ^ n) = n := by
  rw [Real.logb, Real.log_pow, mul_div_assoc,
    div_self (Real.log_pos one_lt_two).ne', mul_one]

lemma logb_two_256 : Real.logb 2 ((256 : ℕ) : ℝ) = 8 := by
  rw [show ((256 : ℕ) : ℝ) = (2 : ℝ) ^ (8 : ℕ) by norm_num, logb_two_pow]
  norm_num

lemma logb_two_128 : Real.logb 2 ((128 : ℕ) : ℝ) = 7 := by
  rw [show ((128 : ℕ) : ℝ) = (2 : ℝ) ^ (7 : ℕ) by norm_num, logb_two_pow]
  norm_num

/-- If the loop body returns a value, the returned frame rate is at most the
incoming frame rate: the `while` condition is false on exit. -/
lemma nextGuessLoop_rate_le {depth : ℕ} {frameRate r : ℝ} :
    ∀ {fuel newDepth : ℕ} {p : ℕ × ℝ},
      nextGuessLoop depth frameRate r fuel newDepth = some p → p.2 ≤ frameRate := by
  intro fuel
  induction fuel with
  | zero => intro newDepth p h; simp [nextGuessLoop] at h
  | succ n ih =>
    intro newDepth p h
    rw [nextGuessLoop] at h
    by_cases h1 : newDepth ≤ 1
    · simp [h1] at h
    · rw [if_neg h1] at h
      by_cases h2 : frameRate < nextGuessRate depth newDepth frameRate r
      · rw [if_pos h2] at h
        exact ih h
      · rw [if_neg h2] at h
        have := Option.some.inj h
        rw [← this]
        exact le_of_not_lt h2

/-- Concrete evaluation used for witnesses: at `depth = 256`,
`frame_rate = 50`, `r = 1/2`, the loop exits on its first test with
`new_depth = 128` and `new_frame_rate = 8 * 50 * (1/2) / 7 = 200/7`. -/
lemma next_guess_eval_half :
    next_guess 256 50 true (1 / 2) 1 = some (128, 200 / 7) := by
  have hrate : nextGuessRate 256 128 50 (1 / 2) = 200 / 7 := by
    rw [nextGuessRate, logb_two_256, logb_two_128]
    norm_num
  have h2 : (256 : ℕ) / 2 = 128 := by norm_num
  rw [next_guess, if_pos rfl, h2, nextGuessLoop, if_neg (by norm_num),
    if_neg (by rw [hrate]; norm_num), hrate]

/-- C1: for every multi-palette update step of `next_guess` with
`0 < r < 1`, whenever the step returns a result (the loop exits within the
given fuel), the returned frame rate is at most the incoming frame rate. -/
theorem next_guess_rate_nonincreasing (depth : ℕ) (frameRate r : ℝ)
    (fuel : ℕ) (p : ℕ × ℝ) (hr0 : 0 < r) (hr1 : r < 1)
    (h : next_guess depth frameRate true r fuel = some p) :
    p.2 ≤ frameRate := by
  rw [next_guess, if_pos rfl] at h
  exact nextGuessLoop_rate_le h

/-- Witness for C1, at the input singled out by the spec:
`depth = 256, rate = 50, ratio = 0.5` does not produce a rate above 50. -/
theorem next_guess_rate_nonincreasing_witness :
    next_guess 256 50 true (1 / 2) 1 = some (128, 200 / 7) ∧
      (200 / 7 : ℝ) ≤ 50 :=
  ⟨next_guess_eval_half,
    next_guess_rate_nonincreasing 256 50 (1 / 2) 1 (128, 200 / 7)
      (by norm_num) (by norm_num) next_guess_eval_half⟩

/-- The averaging step preserves `depth / 2 ≤ new_depth < depth`, so any
returned depth lies in that interval. -/
lemma nextGuessLoop_depth_bounds {depth : ℕ} {frameRate r : ℝ} :
    ∀ {fuel newDepth : ℕ} {p : ℕ × ℝ}, depth / 2 ≤ newDepth → newDepth < depth →
      nextGuessLoop depth frameRate r fuel newDepth = some p →
      depth / 2 ≤ p.1 ∧ p.1 < depth := by
  intro fuel
  induction fuel with
  | zero => intro newDepth p _ _ h; simp [nextGuessLoop] at h
  | succ n ih =>
    intro newDepth p hlo hhi h
    rw [nextGuessLoop] at h
    by_cases h1 : newDepth ≤ 1
    · simp [h1] at h
    · rw [if_neg h1] at h
      by_cases h2 : frameRate < nextGuessRate depth newDepth frameRate r
      · rw [if_pos h2] at h
        exact ih (by omega) (by omega) h
      · rw [if_neg h2] at h
        have := Option.some.inj h
        rw [← this]
        exact ⟨hlo, hhi⟩

/-- C9: every result of a multi-palette `next_guess` step with
`depth ≥ 4` has a strictly smaller depth, no smaller than `depth // 2`. -/
theorem next_guess_depth_decreases (depth : ℕ) (frameRate r : ℝ)
    (fuel : ℕ) (p : ℕ × ℝ) (hd : 4 ≤ depth) (hr0 : 0 < r) (hr1 : r < 1)
    (h : next_guess depth frameRate true r fuel = some p) :
    depth / 2 ≤ p.1 ∧ p.1 < depth := by
  rw [next_guess, if_pos rfl] at h
  exact nextGuessLoop_depth_bounds (le_refl _) (by omega) h

/-- Witness for C9 at `depth = 256, rate = 50, r = 1/2`: the returned
depth `128` satisfies `256 / 2 ≤ 128 < 256`. -/
theorem next_guess_depth_decreases_witness :
    256 / 2 ≤ ((128 : ℕ), (200 / 7 : ℝ)).1 ∧ ((128 : ℕ), (200 / 7 : ℝ)).1 < 256 :=
  next_guess_depth_decreases 256 50 (1 / 2) 1 (128, 200 / 7)
    (by norm_num) (by norm_num) (by norm_num) next_guess_eval_half

lemma logb_two_three_pos : 0 < Real.logb 2 ((3 : ℕ) : ℝ) :=
  Real.logb_pos one_lt_two (by norm_num)

/-- Bound `logb 2 3 < 9/5`, i.e. `3^5 < 2^9`. -/
lemma logb_two_three_lt : Real.logb 2 ((3 : ℕ) : ℝ) < 9 / 5 := by
  have h1 : Real.log ((3 : ℝ) ^ (5 : ℕ)) < Real.log ((2 : ℝ) ^ (9 : ℕ)) :=
    Real.log_lt_log (by positivity) (by norm_num)
  rw [Real.log_pow, Real.log_pow] at h1
  have h2 : (0 : ℝ) < Real.log 2 := Real.log_pos one_lt_two
  rw [show ((3 : ℕ) : ℝ) = (3 : ℝ) by norm_num, Real.logb, div_lt_iff h2]
  push_cast at h1
  linarith

lemma logb_two_four : Real.logb 2 ((4 : ℕ) : ℝ) = 2 := by
  rw [show ((4 : ℕ) : ℝ) = (2 : ℝ) ^ (2 : ℕ) by norm_num, logb_two_pow]
  norm_num

/-- At `depth = 4, frame_rate = 1, r = 9/10`, once `new_depth = 3` the loop
condition stays true and the averaging step maps `3` back to `3`:
the loop never exits, whatever the fuel. -/
lemma nextGuessLoop_stuck_at_three :
    ∀ fuel : ℕ, nextGuessLoop 4 1 (9 / 10) fuel 3 = none := by
  have hcond : (1 : ℝ) < nextGuessRate 4 3 1 (9 / 10) := by
    rw [nextGuessRate, logb_two_four]
    rw [show (2 : ℝ) * 1 * (9 / 10) = 9 / 5 by norm_num]
    rw [lt_div_iff logb_two_three_pos, one_mul]
    exact logb_two_three_lt
  intro fuel
  induction fuel with
  | zero => simp [nextGuessLoop]
  | succ n ih =>
    rw [nextGuessLoop, if_neg (by norm_num), if_pos hcond]
    exact ih

/-- C2 counterexample: at `depth = 4, frame_rate = 1, r = 9/10` the inner
bisection loop of `next_guess` never terminates: no amount of fuel makes it
return.  (`new_depth` reaches the fixed point `3` of the averaging step
while the recomputed rate stays above the old rate, since
`log2(4) * (9/10) > log2(3)`.) -/
theorem next_guess_loop_divergence :
    ¬ ∃ (fuel : ℕ) (p : ℕ × ℝ), next_guess 4 1 true (9 / 10) fuel = some p := by
  rintro ⟨fuel, p, h⟩
  rw [next_guess, if_pos rfl] at h
  rcases fuel with _ | n
  · simp [nextGuessLoop] at h
  · have hcond : (1 : ℝ) < nextGuessRate 4 2 1 (9 / 10) := by
      rw [nextGuessRate, logb_two_four,
        show ((2 : ℕ) : ℝ) = (2 : ℝ) by norm_num,
        Real.logb_self_eq_one one_lt_two]
      norm_num
    rw [show (4 : ℕ) / 2 = 2 by norm_num, nextGuessLoop,
      if_neg (by norm_num), if_pos hcond,
      show (2 + 4) / 2 = 3 by norm_num, nextGuessLoop_stuck_at_three] at h
    exact Option.noConfusion h

/-- If the loop condition holds at `newDepth` then
`logb 2 newDepth < r * logb 2 depth` (for positive frame rate and
`newDepth ≥ 2`). -/
lemma nextGuessRate_gt_imp {depth newDepth : ℕ} {frameRate r : ℝ}
    (hf : 0 < frameRate) (hnd : 2 ≤ newDepth)
    (h : frameRate < nextGuessRate depth newDepth frameRate r) :
    Real.logb 2 (newDepth : ℝ) < r * Real.logb 2 (depth : ℝ) := by
  have hB : 0 < Real.logb 2 (newDepth : ℝ) :=
    Real.logb_pos one_lt_two (by exact_mod_cast hnd.trans_lt' one_lt_two)
  rw [nextGuessRate, lt_div_iff hB] at h
  have h2 : frameRate * Real.logb 2 (newDepth : ℝ) <
      frameRate * (r * Real.logb 2 (depth : ℝ)) := by
    calc frameRate * Real.logb 2 (newDepth : ℝ)
        < Real.logb 2 (depth : ℝ) * frameRate * r := h
      _ = frameRate * (r * Real.logb 2 (depth : ℝ)) := by ring
  exact lt_of_mul_lt_mul_left h2 hf.le

/-- Termination of the averaging loop under the amended hypothesis
`r * logb 2 depth ≤ logb 2 (depth - 1)`: the loop exits with fuel `depth`. -/
lemma nextGuessLoop_terminates {depth : ℕ} {frameRate r : ℝ}
    (hd : 4 ≤ depth) (hf : 0 < frameRate)
    (hkey : r * Real.logb 2 (depth : ℝ) ≤ Real.logb 2 ((depth - 1 : ℕ) : ℝ)) :
    ∀ (fuel newDepth : ℕ), 2 ≤ newDepth → newDepth < depth →
      depth - newDepth ≤ fuel →
      ∃ p, nextGuessLoop depth frameRate r fuel newDepth = some p := by
  intro fuel
  induction fuel with
  | zero => intro newDepth h2 hlt hfuel; omega
  | succ n ih =>
    intro newDepth h2 hlt hfuel
    by_cases hcond : frameRate < nextGuessRate depth newDepth frameRate r
    · have hne : newDepth ≠ depth - 1 := by
        intro hEq
        have := nextGuessRate_gt_imp hf h2 hcond
        rw [hEq] at this
        exact absurd hkey (not_le.mpr this)
      have hrec := ih ((newDepth + depth) / 2) (by omega) (by omega) (by omega)
      rcases hrec with ⟨p, hp⟩
      exact ⟨p, by rw [nextGuessLoop, if_neg (by omega), if_pos hcond]; exact hp⟩
    · exact ⟨(newDepth, nextGuessRate depth newDepth frameRate r), by
        rw [nextGuessLoop, if_neg (by omega), if_neg hcond]⟩

/-- C2 amended: for `depth ≥ 4`, positive frame rate and `0 < r < 1`, the
inner bisection loop of the multi-palette update terminates — within at
most `depth` averaging steps — *provided* `r * log2(depth) ≤ log2(depth-1)`
(the counterexample `next_guess_loop_divergence` shows the loop diverges
when this fails), and the frame rate it reaches is at most the old one. -/
theorem next_guess_loop_terminates (depth : ℕ) (frameRate r : ℝ)
    (hd : 4 ≤ depth) (hf : 0 < frameRate) (hr0 : 0 < r) (hr1 : r < 1)
    (hkey : r * Real.logb 2 (depth : ℝ) ≤ Real.logb 2 ((depth - 1 : ℕ) : ℝ)) :
    ∃ p, next_guess depth frameRate true r depth = some p ∧ p.2 ≤ frameRate := by
  have h := nextGuessLoop_terminates hd hf hkey depth (depth / 2)
    (by omega) (by omega) (by omega)
  rcases h with ⟨p, hp⟩
  refine ⟨p, ?_, nextGuessLoop_rate_le hp⟩
  rw [next_guess, if_pos rfl]
  exact hp

/-- Witness for the amended C2 at `depth = 256, rate = 50, r = 1/2`:
`(1/2) * log2 256 = 4 = log2 16 ≤ log2 255`, so the loop terminates. -/
theorem next_guess_loop_terminates_witness :
    ∃ p, next_guess 256 50 true (1 / 2) 256 = some p ∧ p.2 ≤ 50 := by
  refine next_guess_loop_terminates 256 50 (1 / 2) (by norm_num) (by norm_num)
    (by norm_num) (by norm_num) ?_
  rw [logb_two_256, show ((256 - 1 : ℕ) : ℝ) = 255 by norm_num]
  have h16 : Real.logb 2 (16 : ℝ) = 4 := by
    rw [show (16 : ℝ) = (2 : ℝ) ^ (4 : ℕ) by norm_num, logb_two_pow]
    norm_num
  have hle : Real.logb 2 (16 : ℝ) ≤ Real.logb 2 (255 : ℝ) :=
    Real.logb_le_logb_of_le one_lt_two (by norm_num) (by norm_num)
  rw [h16] at hle
  linarith

/-- C3: (a) whenever a multi-palette update would set the colour depth below
`gif_color_depth_min` or the frame rate below `gif_frame_rate_min`, the
state used for the next trial is exactly
`(maxDepth, min(sourceRate, maxRate), Single)`; (b) once in single-palette
mode, the step keeps single-palette mode (and applies the shrink factor to
the frame rate alone), so no further regime switch occurs. -/
theorem createGif_regime_switch (args : GifArgs) (srcRate : ℝ) (st : GifState)
    (r : ℝ) (fuel : ℕ) (d : ℕ) (f : ℝ) :
    (st.multiPalette = true →
      next_guess st.depth st.frameRate true r fuel = some (d, f) →
      (d < args.colorDepthMin ∨ f < args.frameRateMin) →
      createGifStep args srcRate st r fuel =
        some ⟨args.colorDepthMax, min srcRate args.frameRateMax, false⟩) ∧
    (st.multiPalette = false →
      createGifStep args srcRate st r fuel =
        some ⟨st.depth, st.frameRate * r, false⟩) := by
  constructor
  · intro hmp hng hbelow
    rw [createGifStep, hmp, hng]
    simp [hbelow]
  · intro hmp
    rw [createGifStep, hmp]
    have hng : next_guess st.depth st.frameRate false r fuel =
        some (st.depth, st.frameRate * r) := by
      rw [next_guess]
      simp
    rw [hng]
    simp

/-- Concrete evaluation used for the C3 witness: at
`depth = 256, rate = 50, r = 1/10` the loop exits immediately with
`(128, 8 * 50 * (1/10) / 7) = (128, 40/7)`, and `40/7 < 12`. -/
lemma next_guess_eval_tenth :
    next_guess 256 50 true (1 / 10) 1 = some (128, 40 / 7) := by
  have hrate : nextGuessRate 256 128 50 (1 / 10) = 40 / 7 := by
    rw [nextGuessRate, logb_two_256, logb_two_128]
    norm_num
  have h2 : (256 : ℕ) / 2 = 128 := by norm_num
  rw [next_guess, if_pos rfl, h2, nextGuessLoop, if_neg (by norm_num),
    if_neg (by rw [hrate]; norm_num), hrate]

/-- Witness for C3 with `minDepth = 96, maxDepth = 256, minRate = 12,
maxRate = 50, sourceRate = 24`: a multi-palette update to `40/7 < 12`
resets the state to `(256, min 24 50, Single)`, and a single-palette step
keeps single-palette mode. -/
theorem createGif_regime_switch_witness :
    createGifStep ⟨96, 256, 12, 50⟩ 24 ⟨256, 50, true⟩ (1 / 10) 1 =
        some ⟨256, min 24 50, false⟩ ∧
      createGifStep ⟨96, 256, 12, 50⟩ 24 ⟨256, 24, false⟩ (1 / 2) 1 =
        some ⟨256, 24 * (1 / 2), false⟩ :=
  ⟨(createGif_regime_switch ⟨96, 256, 12, 50⟩ 24 ⟨256, 50, true⟩ (1 / 10) 1
      128 (40 / 7)).1 rfl next_guess_eval_tenth (Or.inr (by norm_num)),
    (createGif_regime_switch ⟨96, 256, 12, 50⟩ 24 ⟨256, 24, false⟩ (1 / 2) 1
      128 0).2 rfl⟩

/-- C4 counterexample: with total duration `10`, no cuts, one clip of
length `12`, the single window starts at `-1 < cutStart = 0`, so it is not
contained in `[cutStart, D - cutEnd] = [0, 10]`: containment fails for
clip lengths that are large relative to the usable duration. -/
theorem clipStarts_containment_cex :
    ∃ s ∈ clipStarts 10 0 0 12 1, ¬ (0 ≤ s ∧ s + 12 ≤ 10 - 0) := by
  refine ⟨-1, ?_, ?_⟩
  · have : clipStarts 10 0 0 12 1 = [-1] := by
      rw [clipStarts, show (1 : ℕ) = 0 + 1 by norm_num, List.range_succ]
      simp only [List.range_zero, List.nil_append, List.map_cons, List.map_nil]
      rw [clipStart]
      norm_num
    rw [this]
    exact List.mem_singleton.mpr rfl
  · intro h
    rcases h with ⟨h1, _⟩
    norm_num at h1

/-- C4 amended: for `count ≥ 1`, `cutStart, cutEnd ≥ 0`, clip length
`L > 0`, and `L * (count + 1) ≤ 2 * (D - cutStart - cutEnd)` — i.e. the
clip fits between consecutive window centres, which the counterexample
shows is necessary — `prepare_clips` computes exactly `count` windows,
every window `[s, s + L]` lies inside `[cutStart, D - cutEnd]`, and the
start times are strictly increasing. -/
theorem clipStarts_windows (D cS cE L : ℚ) (clips : ℕ)
    (hclips : 1 ≤ clips) (hcS : 0 ≤ cS) (hcE : 0 ≤ cE) (hL : 0 < L)
    (hfit : L * (clips + 1) ≤ 2 * (D - cS - cE)) :
    (clipStarts D cS cE L clips).length = clips ∧
    (∀ s ∈ clipStarts D cS cE L clips, cS ≤ s ∧ s + L ≤ D - cE) ∧
    (clipStarts D cS cE L clips).Pairwise (· < ·) := by
  have hc1 : (0 : ℚ) < (clips : ℚ) + 1 := by positivity
  have hlwc : 0 < D - cS - cE := by nlinarith
  refine ⟨by simp [clipStarts], ?_, ?_⟩
  · intro s hs
    rw [clipStarts, List.mem_map] at hs
    rcases hs with ⟨i, hi, rfl⟩
    rw [List.mem_range] at hi
    have hi1 : (1 : ℚ) ≤ (i : ℚ) + 1 := by
      have : (0 : ℚ) ≤ (i : ℚ) := Nat.cast_nonneg i
      linarith
    have hic : (i : ℚ) + 1 ≤ (clips : ℚ) := by
      have : (i : ℚ) + 1 ≤ (clips : ℚ) := by exact_mod_cast hi
      exact this
    constructor
    · rw [clipStart]
      have : L / 2 ≤ (D - cS - cE) * ((i : ℚ) + 1) / ((clips : ℚ) + 1) := by
        rw [div_le_div_iff (by norm_num) hc1]
        nlinarith
      linarith
    · rw [clipStart]
      have key : (D - cS - cE) * ((i : ℚ) + 1) / ((clips : ℚ) + 1) + L / 2 ≤
          D - cS - cE := by
        rw [div_add' _ _ _ hc1.ne', div_le_iff hc1]
        nlinarith
      have hDE : D - cE = cS + (D - cS - cE) := by ring
      linarith
  · rw [clipStarts]
    refine List.Pairwise.map _ ?_ (List.pairwise_lt_range clips)
    intro a b hab
    rw [clipStart, clipStart]
    have hcast : (a : ℚ) < (b : ℚ) := by exact_mod_cast hab
    have : (D - cS - cE) * ((a : ℚ) + 1) / ((clips : ℚ) + 1) <
        (D - cS - cE) * ((b : ℚ) + 1) / ((clips : ℚ) + 1) := by
      rw [div_lt_div_iff hc1 hc1]
      have h1 : (D - cS - cE) * ((a : ℚ) + 1) < (D - cS - cE) * ((b : ℚ) + 1) := by
        nlinarith
      exact mul_lt_mul_of_pos_right h1 hc1
    linarith

/-- Witness for the amended C4: the spec's end-to-end scenario
(`D = 100`, no cuts, 4 clips of 3 seconds) satisfies the fit hypothesis
`3 * 5 ≤ 2 * 100`. -/
theorem clipStarts_windows_witness :
    (clipStarts 100 0 0 3 4).length = 4 ∧
    (∀ s ∈ clipStarts 100 0 0 3 4, 0 ≤ s ∧ s + 3 ≤ 100 - 0) ∧
    (clipStarts 100 0 0 3 4).Pairwise (· < ·) :=
  clipStarts_windows 100 0 0 3 4 (by norm_num) (by norm_num) (by norm_num)
    (by norm_num) (by norm_num)

/-- Flattening `N` consecutive chunks of size `l` yields the first `N * l`
elements. -/
lemma flatten_chunks {α : Type*} (l : ℕ) :
    ∀ (N : ℕ) (xs : List α),
      ((List.range N).map (fun i => (xs.drop (i * l)).take l)).flatten =
        xs.take (N * l) := by
  intro N
  induction N with
  | zero => intro xs; simp
  | succ n ih =>
    intro xs
    rw [List.range_succ, List.map_append, List.flatten_append, ih]
    simp only [List.map_cons, List.map_nil, List.flatten_cons, List.flatten_nil,
      List.append_nil]
    rw [← List.take_add]
    congr 1
    ring

/-- Every slice issued by `ffmpeg_mimo` stays inside the job list and has
positive batch size at most `limit`. -/
lemma mimoSlices_bounds {n limit : ℕ} (hpos : 0 < limit) :
    ∀ s ∈ mimoSlices n limit, s.1 + s.2 ≤ n ∧ 0 < s.2 ∧ s.2 ≤ limit := by
  intro s hs
  rw [mimoSlices, List.mem_append] at hs
  rcases hs with hs | hs
  · rw [List.mem_map] at hs
    rcases hs with ⟨i, hi, rfl⟩
    rw [List.mem_range] at hi
    have h1 : (i + 1) * limit ≤ n / limit * limit :=
      Nat.mul_le_mul_right limit (Nat.succ_le_of_lt hi)
    have h2 : n / limit * limit ≤ n := Nat.div_mul_le_self n limit
    have h4 : i * limit + limit = (i + 1) * limit := by ring
    refine ⟨?_, hpos, le_refl _⟩
    simp only
    omega
  · by_cases hm : n % limit ≠ 0
    · rw [if_pos hm, List.mem_singleton] at hs
      subst hs
      have hdm := Nat.div_add_mod n limit
      have hcomm : limit * (n / limit) = n / limit * limit := Nat.mul_comm _ _
      have h3 : n % limit < limit := Nat.mod_lt n hpos
      exact ⟨by omega, by omega, by omega⟩
    · rw [if_neg hm] at hs
      simp at hs

/-- Flattening the slices of `mimoSlices` recovers the whole list. -/
lemma mimoSlices_flatten {α : Type*} (limit : ℕ) (xs : List α) :
    ((mimoSlices xs.length limit).map
      (fun s => (xs.drop s.1).take s.2)).flatten = xs := by
  rw [mimoSlices, List.map_append, List.flatten_append, List.map_map]
  have hfull : ((List.range (xs.length / limit)).map
      ((fun s : ℕ × ℕ => (xs.drop s.1).take s.2) ∘
        (fun i => (i * limit, limit)))).flatten =
      xs.take (xs.length / limit * limit) :=
    flatten_chunks limit (xs.length / limit) xs
  rw [hfull]
  have hdm := Nat.div_add_mod xs.length limit
  have hcomm : limit * (xs.length / limit) = xs.length / limit * limit :=
    Nat.mul_comm _ _
  by_cases hm : xs.length % limit ≠ 0
  · rw [if_pos hm]
    simp only [List.map_cons, List.map_nil, List.flatten_cons, List.flatten_nil,
      List.append_nil]
    rw [← List.take_add]
    rw [show xs.length / limit * limit + xs.length % limit =
      xs.length by omega]
    exact List.take_length xs
  · rw [if_neg hm]
    simp only [List.map_nil, List.flatten_nil, List.append_nil]
    rw [show xs.length / limit * limit = xs.length by omega]
    exact List.take_length xs

/-- C5: the batched dispatcher partitions the jobs into consecutive batches
(flattening the per-invocation inputs and outputs recovers the original
lists in order), every batch has at most `limit` jobs, within each batch
the `-map` stream indices are `0, 1, …, k-1` pairing output `j` with input
`j` of that batch, and for 23 jobs with limit 10 exactly 3 invocations of
sizes 10, 10, 3 are issued. -/
theorem ffmpeg_mimo_batching {I O : Type*} (inputs : List I) (outputs : List O)
    (limit : ℕ) (hlen : inputs.length = outputs.length) (hpos : 0 < limit) :
    ((ffmpeg_mimo inputs outputs limit).map (fun c => c.1)).flatten = inputs ∧
    ((ffmpeg_mimo inputs outputs limit).map
      (fun c => c.2.map Prod.snd)).flatten = outputs ∧
    (∀ c ∈ ffmpeg_mimo inputs outputs limit,
      c.1.length ≤ limit ∧ c.2.map Prod.fst = List.range c.1.length) ∧
    (ffmpeg_mimo (List.range 23) (List.range 23) 10).map
      (fun c => c.1.length) = [10, 10, 3] := by
  refine ⟨?_, ?_, ?_, by decide⟩
  · rw [ffmpeg_mimo, List.map_map]
    exact mimoSlices_flatten limit inputs
  · rw [ffmpeg_mimo, List.map_map]
    have hsnd : ∀ s : ℕ × ℕ,
        ((fun c : List I × List (ℕ × O) => c.2.map Prod.snd) ∘
          (fun s => ((inputs.drop s.1).take s.2,
            (List.range s.2).zip ((outputs.drop s.1).take s.2)))) s =
        (outputs.drop s.1).take s.2 := by
      intro s
      simp only [Function.comp_apply]
      refine List.map_snd_zip _ _ ?_
      rw [List.length_range, List.length_take]
      exact min_le_left _ _
    rw [List.map_congr_left (fun s _ => hsnd s), hlen]
    exact mimoSlices_flatten limit outputs
  · intro c hc
    rw [ffmpeg_mimo, List.mem_map] at hc
    rcases hc with ⟨s, hs, rfl⟩
    have hb := mimoSlices_bounds hpos s hs
    have hin : ((inputs.drop s.1).take s.2).length = s.2 := by
      rw [List.length_take, List.length_drop]
      omega
    have hout : ((outputs.drop s.1).take s.2).length = s.2 := by
      rw [List.length_take, List.length_drop]
      omega
    constructor
    · simp only
      rw [hin]
      exact hb.2.2
    · simp only
      rw [hin]
      refine List.map_fst_zip _ _ ?_
      rw [List.length_range, hout]

/-- Witness for C5 at the spec's concrete instance: 23 jobs, limit 10. -/
theorem ffmpeg_mimo_batching_witness :
    ((ffmpeg_mimo (List.range 23) (List.range 23) 10).map
      (fun c => c.1)).flatten = List.range 23 ∧
    (ffmpeg_mimo (List.range 23) (List.range 23) 10).map
      (fun c => c.1.length) = [10, 10, 3] :=
  ⟨(ffmpeg_mimo_batching (List.range 23) (List.range 23) 10 rfl
      (by norm_num)).1,
    (ffmpeg_mimo_batching (List.range 23) (List.range 23) 10 rfl
      (by norm_num)).2.2.2⟩

/-- A list whose `getLast?` is `some a` contains `a`. -/
lemma getLast?_eq_some_mem {α : Type*} {l : List α} {a : α}
    (h : l.getLast? = some a) : a ∈ l := by
  rcases List.mem_getLast?_eq_getLast (show a ∈ l.getLast? from h) with ⟨hne, heq⟩
  rw [heq]
  exact List.getLast_mem hne

/-- Scan invariant, by induction over the remaining variants: starting from
a running best `b0` and already-deleted list `d0`, the scan ends with a
best `b` that (i) has minimal size among `b0` and the rest, (ii) together
with the deletions added accounts for every scanned name exactly once, and
(iii) is the *last* entry of minimal size among `b0 :: l`. -/
lemma ditherStep_foldl_invariant {ν : Type*} :
    ∀ (l : List (ν × ℕ)) (b0 : ν × ℕ) (d0 : List ν),
      ∃ b rest, l.foldl ditherStep (some b0, d0) = (some b, d0 ++ rest) ∧
        b.2 ≤ b0.2 ∧ (∀ v ∈ l, b.2 ≤ v.2) ∧
        (rest ++ [b.1]).Perm (b0.1 :: l.map Prod.fst) ∧
        ((b0 :: l).filter (fun v => v.2 == b.2)).getLast? = some b := by
  intro l
  induction l with
  | nil =>
    intro b0 d0
    refine ⟨b0, [], by simp [List.foldl], le_refl _, by simp, by simp, ?_⟩
    simp [List.filter]
  | cons c l ih =>
    intro b0 d0
    by_cases hle : c.2 ≤ b0.2
    · have hstep : ditherStep (some b0, d0) c = (some c, d0 ++ [b0.1]) := by
        rw [ditherStep]
        simp only [if_pos hle]
      rcases ih c (d0 ++ [b0.1]) with ⟨b, rest, hfold, hbb, hall, hperm, hlast⟩
      refine ⟨b, [b0.1] ++ rest, ?_, hbb.trans hle, ?_, ?_, ?_⟩
      · rw [List.foldl_cons, hstep, hfold, List.append_assoc]
      · intro v hv
        rcases List.mem_cons.mp hv with rfl | hv
        · exact hbb
        · exact hall v hv
      · have h1 : ([b0.1] ++ rest) ++ [b.1] = b0.1 :: (rest ++ [b.1]) := by simp
        rw [h1, List.map_cons]
        exact hperm.cons b0.1
      · have hb2 : b.2 ≤ c.2 := hbb
        by_cases hb0 : (b0.2 == b.2) = true
        · have hc2 : (c.2 == b.2) = true := by
            have h1 : b0.2 = b.2 := eq_of_beq hb0
            have h3 : c.2 = b.2 := le_antisymm (h1 ▸ hle) hb2
            exact beq_iff_eq.mpr h3
          rw [List.filter_cons, if_pos hb0]
          rw [List.filter_cons, if_pos hc2] at hlast ⊢
          rw [List.getLast?_cons_cons]
          exact hlast
        · rw [List.filter_cons, if_neg hb0]
          exact hlast
    · have hstep : ditherStep (some b0, d0) c = (some b0, d0 ++ [c.1]) := by
        rw [ditherStep]
        simp only [if_neg hle]
      rcases ih b0 (d0 ++ [c.1]) with ⟨b, rest, hfold, hbb, hall, hperm, hlast⟩
      refine ⟨b, [c.1] ++ rest, ?_, hbb, ?_, ?_, ?_⟩
      · rw [List.foldl_cons, hstep, hfold, List.append_assoc]
      · intro v hv
        rcases List.mem_cons.mp hv with rfl | hv
        · exact hbb.trans (le_of_not_le hle)
        · exact hall v hv
      · have h1 : ([c.1] ++ rest) ++ [b.1] = c.1 :: (rest ++ [b.1]) := by simp
        rw [h1, List.map_cons]
        exact (hperm.cons c.1).trans (List.Perm.swap b0.1 c.1 (l.map Prod.fst))
      · have hc2 : ¬ ((c.2 == b.2) = true) := by
          intro h
          have h1 : c.2 = b.2 := eq_of_beq h
          have h2 := hbb.trans (le_of_not_le hle)
          omega
        have hfc : List.filter (fun v => v.2 == b.2) (c :: l) =
            List.filter (fun v => v.2 == b.2) l := by
          rw [List.filter_cons, if_neg hc2]
        rw [List.filter_cons] at hlast ⊢
        by_cases hb0 : (b0.2 == b.2) = true
        · rw [if_pos hb0] at hlast ⊢
          rw [hfc]
          exact hlast
        · rw [if_neg hb0] at hlast ⊢
          rw [hfc]
          exact hlast

/-- C6 counterexample: for two variants of equal size, the scan keeps the
*second*-enumerated one, not the earliest: the `current[2] <= best[2]`
test replaces the running best on ties. -/
theorem choose_dither_tie_cex :
    (choose_dither_algo [((0 : ℕ), (5 : ℕ)), (1, 5)]).1 = some (1, 5) ∧
      some ((1 : ℕ), (5 : ℕ)) ≠ some ((0 : ℕ), (5 : ℕ)) := by
  decide

/-- C6 amended: for every nonempty variant list the scan keeps a running
best by smaller-or-equal size with ties resolved in favour of the
*latest*-enumerated algorithm, deletes every non-kept file (the deleted
names together with the kept one are a permutation of all names, so after
the scan exactly one file remains, which the source renames to the
canonical output path), and the kept — hence returned — size is the
minimum of all variant sizes. -/
theorem choose_dither_selection {ν : Type*} (variants : List (ν × ℕ))
    (hne : variants ≠ []) :
    ∃ b d, choose_dither_algo variants = (some b, d) ∧
      b ∈ variants ∧ (∀ v ∈ variants, b.2 ≤ v.2) ∧
      (d ++ [b.1]).Perm (variants.map Prod.fst) ∧
      (variants.filter (fun v => v.2 == b.2)).getLast? = some b := by
  rcases variants with _ | ⟨c, l⟩
  · exact absurd rfl hne
  rcases ditherStep_foldl_invariant l c [] with ⟨b, rest, hfold, hbc, hall, hperm, hlast⟩
  have hstep : ditherStep (none, ([] : List ν)) c = (some c, []) := rfl
  refine ⟨b, rest, ?_, ?_, ?_, ?_, hlast⟩
  · rw [choose_dither_algo, List.foldl_cons, hstep]
    rw [hfold]
    simp
  · have hmem : b ∈ (c :: l).filter (fun v => v.2 == b.2) :=
      getLast?_eq_some_mem hlast
    exact (List.mem_filter.mp hmem).1
  · intro v hv
    rcases List.mem_cons.mp hv with rfl | hv
    · exact hbc
    · exact hall v hv
  · simpa using hperm

/-- Witness for the amended C6 on a concrete variant list with a tie for
the minimum: sizes `[5, 3, 3]` keep the last variant of size `3`. -/
theorem choose_dither_selection_witness :
    ∃ b d, choose_dither_algo [((0 : ℕ), (5 : ℕ)), (1, 3), (2, 3)] = (some b, d) ∧
      b ∈ [((0 : ℕ), (5 : ℕ)), (1, 3), (2, 3)] ∧
      (∀ v ∈ [((0 : ℕ), (5 : ℕ)), (1, 3), (2, 3)], b.2 ≤ v.2) ∧
      (d ++ [b.1]).Perm ([((0 : ℕ), (5 : ℕ)), (1, 3), (2, 3)].map Prod.fst) ∧
      ([((0 : ℕ), (5 : ℕ)), (1, 3), (2, 3)].filter
        (fun v => v.2 == b.2)).getLast? = some b :=
  choose_dither_selection [((0 : ℕ), (5 : ℕ)), (1, 3), (2, 3)] (by simp)

/-- C7 counterexample: an input whose probe finds no usable video stream is
*not* caught by the `except CalledProcessError` handler — with inputs
`[probeNoVideo, ok]` the run aborts instead of continuing to the second
input and returning an exit status. -/
theorem main_probe_uncaught_cex :
    mainLoop [InputOutcome.probeNoVideo, InputOutcome.ok] 0 = Except.error () ∧
      ¬ ∃ returncode, mainLoop [InputOutcome.probeNoVideo, InputOutcome.ok] 0 =
        Except.ok returncode := by
  refine ⟨rfl, ?_⟩
  rintro ⟨rc, h⟩
  rw [show mainLoop [InputOutcome.probeNoVideo, InputOutcome.ok] 0 =
    Except.error () from rfl] at h
  exact Except.noConfusion h

lemma mainLoop_count {l : List InputOutcome}
    (hp : InputOutcome.probeNoVideo ∉ l) :
    ∀ returncode, mainLoop l returncode =
      Except.ok (returncode + l.count InputOutcome.encodeError) := by
  induction l with
  | nil => intro rc; simp [mainLoop]
  | cons o rest ih =>
    intro rc
    have hp' : InputOutcome.probeNoVideo ∉ rest := fun h => hp (List.mem_cons_of_mem o h)
    have ho : o ≠ InputOutcome.probeNoVideo := fun h => hp (h ▸ List.mem_cons_self o rest)
    cases o with
    | ok =>
      rw [mainLoop, ih hp', List.count_cons]
      norm_num
      intro h
      exact InputOutcome.noConfusion h
    | encodeError =>
      rw [mainLoop, ih hp']
      congr 1
      rw [List.count_cons]
      simp only [beq_self_eq_true, if_true]
      omega
    | probeNoVideo => exact absurd rfl ho

lemma mainLoop_abort {l : List InputOutcome}
    (hp : InputOutcome.probeNoVideo ∈ l) :
    ∀ returncode, mainLoop l returncode = Except.error () := by
  induction l with
  | nil => exact absurd hp (List.not_mem_nil _)
  | cons o rest ih =>
    intro rc
    cases o with
    | ok =>
      have : InputOutcome.probeNoVideo ∈ rest := by
        rcases List.mem_cons.mp hp with h | h
        · exact absurd h.symm (by simp)
        · exact h
      rw [mainLoop]
      exact ih this rc
    | encodeError =>
      have : InputOutcome.probeNoVideo ∈ rest := by
        rcases List.mem_cons.mp hp with h | h
        · exact absurd h.symm (by simp)
        · exact h
      rw [mainLoop]
      exact ih this (rc + 1)
    | probeNoVideo => rfl

/-- C7 amended: encode failures (`CalledProcessError`) are caught at the
top level and the run continues, the returned exit status counts the
failed inputs and is nonzero iff at least one input failed — *provided* no
input aborts with the uncaught no-video-stream probe `Exception`; when one
does, the run aborts without an exit status (see
`main_probe_uncaught_cex`). -/
theorem main_error_propagation (l : List InputOutcome) :
    (InputOutcome.probeNoVideo ∉ l →
      mainLoop l 0 = Except.ok (l.count InputOutcome.encodeError) ∧
        (l.count InputOutcome.encodeError ≠ 0 ↔
          ∃ o ∈ l, o ≠ InputOutcome.ok)) ∧
    (InputOutcome.probeNoVideo ∈ l → mainLoop l 0 = Except.error ()) := by
  constructor
  · intro hp
    refine ⟨by simpa using mainLoop_count hp 0, ?_⟩
    rw [← Nat.pos_iff_ne_zero, List.count_pos_iff]
    constructor
    · intro h
      exact ⟨InputOutcome.encodeError, h, by simp⟩
    · rintro ⟨o, ho, hne⟩
      cases o with
      | ok => exact absurd rfl hne
      | encodeError => exact ho
      | probeNoVideo => exact absurd ho hp
  · intro hp
    exact mainLoop_abort hp 0

/-- Witness for the amended C7: with outcomes `[ok, encodeError, ok]` the
run completes with exit status `1 ≠ 0`; with `[encodeError, probeNoVideo]`
the run aborts. -/
theorem main_error_propagation_witness :
    (mainLoop [InputOutcome.ok, InputOutcome.encodeError, InputOutcome.ok] 0 =
      Except.ok 1) ∧
    (mainLoop [InputOutcome.encodeError, InputOutcome.probeNoVideo] 0 =
      Except.error ()) :=
  ⟨((main_error_propagation
      [InputOutcome.ok, InputOutcome.encodeError, InputOutcome.ok]).1
        (by decide)).1,
    (main_error_propagation
      [InputOutcome.encodeError, InputOutcome.probeNoVideo]).2 (by decide)⟩

/-- Foldl characterisation of the `prepare_clips` loop from any starting
accumulator. -/
lemma prepare_clips_foldl (keep : Bool) (preexists : ℕ → Bool) :
    ∀ (l : List ℕ) (p j : List ℕ),
      l.foldl (fun acc i =>
        (acc.1 ++ [i], if keep && preexists i then acc.2 else acc.2 ++ [i]))
        (p, j) =
      (p ++ l, j ++ l.filter (fun i => !(keep && preexists i))) := by
  intro l
  induction l with
  | nil => intro p j; simp
  | cons a l ih =>
    intro p j
    rw [List.foldl_cons, ih]
    by_cases h : (keep && preexists a) = true
    · rw [if_pos h]
      have hf : List.filter (fun i => !(keep && preexists i)) (a :: l) =
          List.filter (fun i => !(keep && preexists i)) l := by
        rw [List.filter_cons, if_neg (by rw [h]; decide)]
      rw [hf]
      simp
    · rw [if_neg h]
      have hfalse : (keep && preexists a) = false := by
        cases hb : (keep && preexists a)
        · rfl
        · exact absurd hb h
      have hf : List.filter (fun i => !(keep && preexists i)) (a :: l) =
          a :: List.filter (fun i => !(keep && preexists i)) l := by
        rw [List.filter_cons, if_pos (by rw [hfalse]; decide)]
      rw [hf]
      simp

/-- C8: the concatenation manifest always lists all `clips` window files in
window order, whatever was skipped; the job list is the subsequence of
windows for which re-extraction runs; and when retention is requested and a
window's file already exists, that window is omitted from the job list
while its file still occupies its original position in the manifest. -/
theorem prepare_clips_retention (keep : Bool) (preexists : ℕ → Bool)
    (clips : ℕ) :
    (prepare_clips keep preexists clips).1 = List.range clips ∧
    (prepare_clips keep preexists clips).2 =
      (List.range clips).filter (fun i => !(keep && preexists i)) ∧
    (∀ i, i < clips → keep = true → preexists i = true →
      i ∉ (prepare_clips keep preexists clips).2 ∧
        (prepare_clips keep preexists clips).1[i]? = some i) := by
  have h := prepare_clips_foldl keep preexists (List.range clips) [] []
  refine ⟨?_, ?_, ?_⟩
  · rw [prepare_clips, h]
    simp
  · rw [prepare_clips, h]
    simp
  · intro i hi hkeep hex
    constructor
    · intro hmem
      rw [prepare_clips, h] at hmem
      simp only [List.nil_append] at hmem
      have hpred := (List.mem_filter.mp hmem).2
      rw [hkeep, hex] at hpred
      simp at hpred
    · rw [prepare_clips, h]
      simp only [List.nil_append]
      exact List.getElem?_range hi

/-- Witness for C8: `keep = true`, window 1 of 3 already exists — it is
skipped in the job list but sits at position 1 of the manifest. -/
theorem prepare_clips_retention_witness :
    1 ∉ (prepare_clips true (fun i => i == 1) 3).2 ∧
      (prepare_clips true (fun i => i == 1) 3).1[1]? = some 1 :=
  (prepare_clips_retention true (fun i => i == 1) 3).2.2 1 (by norm_num)
    rfl (by decide)

/-- C10: an empty job list issues zero external invocations (and, in the
scenario that produces it, retention with every clip file already present
yields an empty job list). -/
theorem ffmpeg_mimo_empty {I O : Type*} (limit clips : ℕ) :
    ffmpeg_mimo ([] : List I) ([] : List O) limit = [] ∧
      (prepare_clips true (fun _ => true) clips).2 = [] := by
  constructor
  · rw [ffmpeg_mimo, mimoSlices]
    simp
  · have h := prepare_clips_foldl true (fun _ => true) (List.range clips) [] []
    rw [prepare_clips, h]
    simp

end Screenshots

